import Mathlib

/-!
Verification of the asymmetree core (gene-tree evolution engine and
Fitch-graph reconstruction) against a shallow Lean embedding of the sources
`asymmetree/hgt/Fitch.py`, `asymmetree/treeevolve/EvolutionRates.py` and
`asymmetree/tools/PhyloTreeTools.py`.

Machine reals (numpy floats) are modelled by `ℚ` where the code only adds,
subtracts and multiplies, and by `ℝ` where the code applies `exp`, `log` and
`sqrt` (the autocorrelation process).  Random draws are modelled by explicit
streams of values passed as function arguments.
-/

namespace AsymTree

/-- Color (reconciliation) attribute of a tree node: either a single species
identifier or an ordered pair (origin, destination) for the instant after a
horizontal transfer. -/
inductive Color where
  | single (c : Nat)
  | pair (a b : Nat)
deriving DecidableEq, Repr

/-- Event tag of a gene-tree node: none/empty, speciation `S`, duplication
`D`, loss `L`, or horizontal gene transfer `H`. -/
inductive Event where
  | none
  | S
  | D
  | L
  | H
deriving DecidableEq, Repr

/-- Attributes of a tree node (the fields of asymmetree's `TreeNode` that the
verified code reads): unique integer `id`, `label`, `color`, `event`, branch
length `dist`, time stamp `tstamp` and the `transferred` flag marking the edge
from the parent as a horizontal-transfer edge. -/
structure NodeData where
  id : Nat
  label : Nat
  color : Color
  event : Event
  dist : ℚ
  tstamp : ℚ
  transferred : Bool
deriving DecidableEq, Repr

/-- Rooted tree with arbitrarily many children per node (asymmetree's
`Tree`).  A node is identified by its position: the list of child indices on
the path from the root. -/
inductive PTree where
  | node (data : NodeData) (children : List PTree)

/-- Attributes of the root of a tree. -/
def PTree.data : PTree → NodeData
  | .node d _ => d

mutual

/-- Leaves of a tree together with their positions, in left-to-right order
(the order of `tree.supply_leaves()`). -/
def leafPositions : PTree → List (List Nat × NodeData)
  | .node d [] => [([], d)]
  | .node _ (c :: cs) => leafPositionsAux 0 (c :: cs)

/-- Leaves of the `i`-th, `i+1`-st, ... children, with positions prefixed by
the child index. -/
def leafPositionsAux : Nat → List PTree → List (List Nat × NodeData)
  | _, [] => []
  | i, c :: cs =>
      (leafPositions c).map (fun pd => (i :: pd.1, pd.2)) ++ leafPositionsAux (i + 1) cs

end

mutual

/-- Nodes on the path from the root to the node at position `p`, from the root
downwards, each with its position.  Positions that leave the tree yield only
the existing part of the path. -/
def ancestorsTo : PTree → List Nat → List (List Nat × NodeData)
  | .node d _, [] => [([], d)]
  | .node d cs, i :: p =>
      ([], d) :: (ancestorsToAux cs i p).map (fun q => (i :: q.1, q.2))

/-- Path of `ancestorsTo` inside the `i`-th element of a child list, with
positions relative to that child. -/
def ancestorsToAux : List PTree → Nat → List Nat → List (List Nat × NodeData)
  | [], _, _ => []
  | c :: _, 0, p => ancestorsTo c p
  | _ :: cs, i + 1, p => ancestorsToAux cs i p

end

/-- Modelled from the spec: the LCA oracle (`asymmetree.tools.TreeTools.LCA`)
is not among the sources; per the spec it answers ancestor-comparability
queries on node identities.  With nodes identified by positions, `a` is an
ancestor-or-self of `b` iff `a`'s position is a prefix of `b`'s. -/
def isAncPath : List Nat → List Nat → Bool
  | [], _ => true
  | _, [] => false
  | a :: as, b :: bs => a == b && isAncPath as bs

/-- Modelled from the spec: `ancestor_not_equal(a, b)` of the LCA oracle,
missing from the sources; per its name and the spec's ancestor-comparability
contract it holds iff `a` is a strict (proper) ancestor of `b`. -/
def ancestor_not_equal (a b : List Nat) : Bool :=
  isAncPath a b && a != b

/-- Modelled from the spec: `lca(x, y)` of the LCA oracle, missing from the
sources; the lowest common ancestor of two positions in a rooted tree is
their longest common prefix. -/
def lcaPath : List Nat → List Nat → List Nat
  | a :: as, b :: bs => if a = b then a :: lcaPath as bs else []
  | _, _ => []

/-- First transfer edge on the way from the node at position `x` to the root
(`Fitch.py`, the while loop in `fitch`): walk from `x` upward and return the
position of the first node whose `transferred` flag is set, if any. -/
def first_transfer (t : PTree) (x : List Nat) : Option (List Nat) :=
  ((ancestorsTo t x).reverse.find? (fun q => q.2.transferred)).map Prod.fst

/-- Attributes stored on a node of the Fitch graph (`label` and `color` of the
corresponding leaf). -/
structure NodeAttrs where
  label : Nat
  color : Color
deriving DecidableEq, Repr

/-- Key of a node of a networkx graph as used by `fitch` (`Fitch.py`): the
code keys added nodes by the integer `x.ID` but keys added edges by the leaf
object `x` itself (identified here by its position), and networkx treats the
two as distinct hashable node keys. -/
inductive NxKey where
  | id (n : Nat)
  | obj (pos : List Nat)
deriving DecidableEq, Repr

/-- Model of `networkx.DiGraph`: node keys in insertion order, each with
optional attributes, and directed edges in insertion order. -/
structure DiGraph where
  nodes : List (NxKey × Option NodeAttrs)
  edges : List (NxKey × NxKey)
deriving DecidableEq, Repr

def DiGraph.empty : DiGraph := ⟨[], []⟩

def DiGraph.hasNode (g : DiGraph) (k : NxKey) : Bool :=
  g.nodes.any (fun kv => kv.1 == k)

/-- Model of `networkx.DiGraph.add_node` with attributes: inserts the key or
updates the attributes of an existing key in place. -/
def DiGraph.add_node (g : DiGraph) (k : NxKey) (a : NodeAttrs) : DiGraph :=
  if g.hasNode k then
    { g with nodes := g.nodes.map (fun kv => if kv.1 == k then (k, some a) else kv) }
  else
    { g with nodes := g.nodes ++ [(k, some a)] }

/-- Inserts a node key without attributes if it is not yet present (what
`networkx.DiGraph.add_edge` does to absent endpoints). -/
def DiGraph.ensureNode (g : DiGraph) (k : NxKey) : DiGraph :=
  if g.hasNode k then g else { g with nodes := g.nodes ++ [(k, none)] }

/-- Model of `networkx.DiGraph.add_edge`: absent endpoints are created
without attributes; adding an existing edge is a no-op. -/
def DiGraph.add_edge (g : DiGraph) (u v : NxKey) : DiGraph :=
  let g1 := (g.ensureNode u).ensureNode v
  if g1.edges.contains (u, v) then g1 else { g1 with edges := g1.edges ++ [(u, v)] }

def DiGraph.hasEdge (g : DiGraph) (u v : NxKey) : Bool :=
  g.edges.contains (u, v)

/-- Model of `itertools.permutations(leaves, 2)`: all ordered pairs of
distinct leaves; distinct leaf objects are distinguished by their positions. -/
def orderedPairs (l : List (List Nat × NodeData)) :
    List ((List Nat × NodeData) × (List Nat × NodeData)) :=
  (l.map (fun x => (l.filter (fun y => y.1 != x.1)).map (fun y => (x, y)))).flatten

/-- Condition of the edge-adding loop of `fitch` (`Fitch.py`):
`y in first_transfer and lca_T.ancestor_not_equal(lca_T(x, y),
first_transfer[y])`. -/
def fitchCond (tree : PTree) (x y : List Nat) : Bool :=
  match first_transfer tree y with
  | some ft => ancestor_not_equal (lcaPath x y) ft
  | none => false

/-- Shallow embedding of `fitch` (`Fitch.py`): build the directed Fitch graph
of the tree.  As in the source, the `transfer_edges` parameter is bound but
never read (transfer edges are taken from the nodes' `transferred` flags),
nodes are added keyed by the leaf's integer id together with its `label` and
`color` attributes, and edges are added keyed by the leaf objects
themselves. -/
def fitch (tree : PTree) (transfer_edges : List Nat) : DiGraph :=
  let leaves := leafPositions tree
  let g0 := leaves.foldl
    (fun g x => g.add_node (.id x.2.id) ⟨x.2.label, x.2.color⟩) DiGraph.empty
  (orderedPairs leaves).foldl
    (fun g p =>
      if fitchCond tree p.1.1 p.2.1 then g.add_edge (.obj p.1.1) (.obj p.2.1) else g)
    g0

/-- Undirected graph produced by `symmetric_part`; it stores the directed
edge list and is queried symmetrically by `UGraph.hasEdge`. -/
structure UGraph where
  nodes : List (NxKey × Option NodeAttrs)
  edges : List (NxKey × NxKey)
deriving DecidableEq, Repr

/-- Modelled from the spec: `symmetric_part` from
`asymmetree.tools.GraphTools` is not among the sources; per the spec the
undirected Fitch graph keeps an edge between x and y iff at least one of the
directions (x, y), (y, x) is present in the directed graph (symmetric
closure, not requiring both directions). -/
def symmetric_part (g : DiGraph) : UGraph := ⟨g.nodes, g.edges⟩

/-- Membership of an undirected edge: present iff either direction was
present in the underlying directed graph. -/
def UGraph.hasEdge (g : UGraph) (u v : NxKey) : Bool :=
  g.edges.contains (u, v) || g.edges.contains (v, u)

/-- Embedding of `fitch` with `supply_undirected=True` (`Fitch.py`): returns
the directed Fitch graph together with its symmetric part. -/
def fitchSupplyUndirected (tree : PTree) (transfer_edges : List Nat) :
    DiGraph × UGraph :=
  let g := fitch tree transfer_edges
  (g, symmetric_part g)

/-- Embedding of `undirected_fitch` (`Fitch.py`): the second component of
`fitch` with `supply_undirected=True`. -/
def undirected_fitch (tree : PTree) (transfer_edges : List Nat) : UGraph :=
  (fitchSupplyUndirected tree transfer_edges).2

/-- Concrete example tree: root (id 5) with a leaf x (id 1) and an inner node
(id 4) having the leaves y (id 2, on a transfer edge) and z (id 3). -/
def exLeafX : NodeData := ⟨1, 1, .single 1, .none, 1, 0, false⟩

def exLeafY : NodeData := ⟨2, 2, .single 2, .none, 1, 0, true⟩

def exLeafZ : NodeData := ⟨3, 3, .single 3, .none, 1, 0, false⟩

def exInner : NodeData := ⟨4, 4, .single 4, .S, 1, 1, false⟩

def exRoot : NodeData := ⟨5, 5, .single 5, .S, 0, 2, false⟩

def exTree : PTree :=
  .node exRoot
    [.node exLeafX [], .node exInner [.node exLeafY [], .node exLeafZ []]]

example : leafPositions exTree =
    [([0], exLeafX), ([1, 0], exLeafY), ([1, 1], exLeafZ)] := rfl

example : first_transfer exTree [1, 0] = some [1, 0] := rfl

example : first_transfer exTree [0] = Option.none := rfl

example : (fitch exTree []).hasEdge (.obj [0]) (.obj [1, 0]) = true := by decide

lemma add_node_edges (g : DiGraph) (k : NxKey) (a : NodeAttrs) :
    (g.add_node k a).edges = g.edges := by
  unfold DiGraph.add_node
  split <;> rfl

lemma ensureNode_edges (g : DiGraph) (k : NxKey) :
    (g.ensureNode k).edges = g.edges := by
  unfold DiGraph.ensureNode
  split <;> rfl

lemma mem_add_edge (g : DiGraph) (u v : NxKey) (e : NxKey × NxKey) :
    e ∈ (g.add_edge u v).edges ↔ e ∈ g.edges ∨ e = (u, v) := by
  unfold DiGraph.add_edge
  by_cases h : (u, v) ∈ ((g.ensureNode u).ensureNode v).edges
  · have hc : ((g.ensureNode u).ensureNode v).edges.contains (u, v) = true := by
      simpa using h
    simp only [hc, if_true]
    rw [ensureNode_edges, ensureNode_edges] at h ⊢
    constructor
    · exact Or.inl
    · rintro (he | rfl)
      · exact he
      · exact h
  · have hc : ((g.ensureNode u).ensureNode v).edges.contains (u, v) = false := by
      simpa using h
    simp only [hc, Bool.false_eq_true, if_false, List.mem_append, List.mem_singleton]
    rw [ensureNode_edges, ensureNode_edges]

lemma fitch_init_edges (l : List (List Nat × NodeData)) (g : DiGraph) :
    (l.foldl (fun g x => g.add_node (.id x.2.id) ⟨x.2.label, x.2.color⟩) g).edges
      = g.edges := by
  induction l generalizing g with
  | nil => rfl
  | cons x xs ih => rw [List.foldl_cons, ih, add_node_edges]

lemma fitch_foldl_mem (tree : PTree)
    (ps : List ((List Nat × NodeData) × (List Nat × NodeData)))
    (g : DiGraph) (e : NxKey × NxKey) :
    e ∈ (ps.foldl
        (fun g p =>
          if fitchCond tree p.1.1 p.2.1 then
            g.add_edge (.obj p.1.1) (.obj p.2.1)
          else g) g).edges
      ↔ e ∈ g.edges ∨
        ∃ p ∈ ps, fitchCond tree p.1.1 p.2.1 = true ∧
          e = (NxKey.obj p.1.1, NxKey.obj p.2.1) := by
  induction ps generalizing g with
  | nil => simp
  | cons p ps ih =>
      rw [List.foldl_cons, ih]
      by_cases h : fitchCond tree p.1.1 p.2.1 = true
      · simp only [h, if_true, mem_add_edge]
        constructor
        · rintro ((he | rfl) | ⟨q, hq, hcq, rfl⟩)
          · exact Or.inl he
          · exact Or.inr ⟨p, List.mem_cons_self _ _, h, rfl⟩
          · exact Or.inr ⟨q, List.mem_cons_of_mem _ hq, hcq, rfl⟩
        · rintro (he | ⟨q, hq, hcq, rfl⟩)
          · exact Or.inl (Or.inl he)
          · rcases List.mem_cons.mp hq with rfl | hq
            · exact Or.inl (Or.inr rfl)
            · exact Or.inr ⟨q, hq, hcq, rfl⟩
      · simp only [h, if_false]
        constructor
        · rintro (he | ⟨q, hq, hcq, rfl⟩)
          · exact Or.inl he
          · exact Or.inr ⟨q, List.mem_cons_of_mem _ hq, hcq, rfl⟩
        · rintro (he | ⟨q, hq, hcq, rfl⟩)
          · exact Or.inl he
          · rcases List.mem_cons.mp hq with rfl | hq
            · exact absurd hcq h
            · exact Or.inr ⟨q, hq, hcq, rfl⟩

lemma mem_orderedPairs (l : List (List Nat × NodeData))
    (p : (List Nat × NodeData) × (List Nat × NodeData)) :
    p ∈ orderedPairs l ↔ p.1 ∈ l ∧ p.2 ∈ l ∧ p.2.1 ≠ p.1.1 := by
  unfold orderedPairs
  constructor
  · intro h
    rw [List.mem_flatten] at h
    obtain ⟨L, hL, hpL⟩ := h
    rw [List.mem_map] at hL
    obtain ⟨x, hx, rfl⟩ := hL
    rw [List.mem_map] at hpL
    obtain ⟨y, hy, hxy⟩ := hpL
    rw [List.mem_filter, bne_iff_ne] at hy
    subst hxy
    exact ⟨hx, hy.1, hy.2⟩
  · rintro ⟨h1, h2, hne⟩
    rw [List.mem_flatten]
    refine ⟨(l.filter (fun y => y.1 != p.1.1)).map (fun y => (p.1, y)), ?_, ?_⟩
    · exact List.mem_map.mpr ⟨p.1, h1, rfl⟩
    · refine List.mem_map.mpr ⟨p.2, ?_, Prod.mk.eta⟩
      rw [List.mem_filter, bne_iff_ne]
      exact ⟨h2, hne⟩

lemma fitch_hasEdge_iff (tree : PTree) (te : List Nat) (x y : List Nat) :
    (fitch tree te).hasEdge (.obj x) (.obj y) = true ↔
      ∃ dx dy, (x, dx) ∈ leafPositions tree ∧ (y, dy) ∈ leafPositions tree ∧
        y ≠ x ∧ fitchCond tree x y = true := by
  unfold fitch DiGraph.hasEdge
  rw [show ∀ (l : List (NxKey × NxKey)) (e : NxKey × NxKey),
        (l.contains e = true ↔ e ∈ l) from fun l e => by simp]
  rw [fitch_foldl_mem, fitch_init_edges]
  simp only [DiGraph.empty, List.not_mem_nil, false_or]
  constructor
  · rintro ⟨p, hp, hc, he⟩
    rcases (mem_orderedPairs _ _).mp hp with ⟨h1, h2, hne⟩
    have hx : x = p.1.1 := by
      have := congrArg Prod.fst he
      simpa using this
    have hy : y = p.2.1 := by
      have := congrArg Prod.snd he
      simpa using this
    subst hx; subst hy
    exact ⟨p.1.2, p.2.2, by simpa using h1, by simpa using h2, hne, hc⟩
  · rintro ⟨dx, dy, h1, h2, hne, hc⟩
    refine ⟨((x, dx), (y, dy)), ?_, hc, rfl⟩
    exact (mem_orderedPairs _ _).mpr ⟨h1, h2, hne⟩

/-- C1 (counterexample): in `exTree` the leaf y (position [1, 0]) sits on a
transfer edge, so `first_transfer[y] = y`; the lowest common ancestor of x
(position [0]) and y is the root, which is NOT a strict descendant of
`first_transfer[y]` — yet the directed Fitch graph contains the edge x→y.
The claim's direction of the ancestor test is therefore false on the code. -/
theorem fitch_C1_counterexample :
    (fitch exTree []).hasEdge (.obj [0]) (.obj [1, 0]) = true ∧
    first_transfer exTree [1, 0] = some [1, 0] ∧
    ancestor_not_equal [1, 0] (lcaPath [0] [1, 0]) = false := by
  decide

/-- C1 (amended): for distinct leaves x and y of the gene tree, the directed
Fitch graph returned by `fitch` contains the edge x→y iff `first_transfer[y]`
is defined and the LCA of x and y is a strict ANCESTOR of `first_transfer[y]`
(equivalently, `first_transfer[y]` lies strictly below the LCA of x and y, on
the path towards y). -/
theorem fitch_C1_amended (tree : PTree) (te : List Nat) (x y : List Nat)
    (dx dy : NodeData)
    (hx : (x, dx) ∈ leafPositions tree) (hy : (y, dy) ∈ leafPositions tree)
    (hxy : y ≠ x) :
    (fitch tree te).hasEdge (.obj x) (.obj y) = true ↔
      ∃ ft, first_transfer tree y = some ft ∧
        ancestor_not_equal (lcaPath x y) ft = true := by
  rw [fitch_hasEdge_iff]
  constructor
  · rintro ⟨dx', dy', _, _, _, hc⟩
    unfold fitchCond at hc
    rcases hft : first_transfer tree y with _ | ft
    · rw [hft] at hc; exact absurd hc (by simp)
    · rw [hft] at hc; exact ⟨ft, rfl, hc⟩
  · rintro ⟨ft, hft, ha⟩
    refine ⟨dx, dy, hx, hy, hxy, ?_⟩
    unfold fitchCond
    rw [hft]
    exact ha

/-- C1 (witness): the amended equivalence applied to the concrete tree
`exTree` at the leaves z (position [1, 1]) and y (position [1, 0]). -/
theorem fitch_C1_amended_witness :
    (fitch exTree []).hasEdge (.obj [1, 1]) (.obj [1, 0]) = true ↔
      ∃ ft, first_transfer exTree [1, 0] = some ft ∧
        ancestor_not_equal (lcaPath [1, 1] [1, 0]) ft = true :=
  fitch_C1_amended exTree [] [1, 1] [1, 0] exLeafZ exLeafY
    (by decide) (by decide) (by decide)

/-- C2: the undirected Fitch graph (returned by `undirected_fitch`, equally
the second component of `fitch` with `supply_undirected=True`) has the edge
between x and y iff the directed Fitch graph of the same inputs has the edge
x→y or the edge y→x: the symmetric closure keeping an edge present in at
least one direction. -/
theorem fitch_C2_undirected (tree : PTree) (te : List Nat) (u v : NxKey) :
    ((undirected_fitch tree te).hasEdge u v =
      ((fitch tree te).hasEdge u v || (fitch tree te).hasEdge v u)) ∧
    fitchSupplyUndirected tree te = (fitch tree te, symmetric_part (fitch tree te)) ∧
    undirected_fitch tree te = symmetric_part (fitch tree te) :=
  ⟨rfl, rfl, rfl⟩

/-- C3 (code divergence, evaluated at a failing input): on `exTree` the graph
returned by `fitch` does NOT have the three leaves as its node set.  The code
adds the nodes keyed by the integer leaf ids (with label and color
attributes) but adds the edges keyed by the leaf objects themselves, so every
edge endpoint is an additional node carrying no attributes: the graph has six
nodes for three leaves, and the endpoint nodes have no label or color. -/
theorem fitch_C3_node_set_bug :
    (leafPositions exTree).length = 3 ∧
    (fitch exTree []).nodes.length = 6 ∧
    (fitch exTree []).nodes.contains (NxKey.obj [1, 0], Option.none) = true ∧
    (fitch exTree []).nodes.contains (NxKey.id 2, some ⟨2, .single 2⟩) = true ∧
    (fitch exTree []).hasEdge (.obj [0]) (.obj [1, 0]) = true := by
  decide

/-- C10: the `transfer_edges` argument of `fitch` is never read; for any two
values of it (all other arguments equal) `fitch`, `fitch` with
`supply_undirected=True`, and `undirected_fitch` return identical output. -/
theorem fitch_C10_ignores_transfer_edges (tree : PTree) (te₁ te₂ : List Nat) :
    fitch tree te₁ = fitch tree te₂ ∧
    fitchSupplyUndirected tree te₁ = fitchSupplyUndirected tree te₂ ∧
    undirected_fitch tree te₁ = undirected_fitch tree te₂ :=
  ⟨rfl, rfl, rfl⟩

/-- Consecutive gaps `-np.diff(time_points)` as used by `_adjust_distances`
(`EvolutionRates.py`): the list of differences t_i - t_(i+1). -/
def negDiff : List ℚ → List ℚ
  | a :: b :: rest => (a - b) :: negDiff (b :: rest)
  | _ => []

/-- Dot product `np.dot` on rational lists. -/
def dotQ : List ℚ → List ℚ → ℚ
  | a :: as, b :: bs => a * b + dotQ as bs
  | _, _ => 0

/-- Per-edge distance collapse of `_adjust_distances` (`EvolutionRates.py`):
`time_points = [tstamp for tstamp, _ in rate_list] + [edge[1].tstamp]` and
`edge[1].dist = np.dot(-np.diff(time_points), rate_values)`.  The formula is
division free, so no division by zero (and, over the reals, no NaN) can
occur. -/
def adjusted_dist (rate_list : List (ℚ × ℚ)) (child_tstamp : ℚ) : ℚ :=
  dotQ (negDiff (rate_list.map Prod.fst ++ [child_tstamp])) (rate_list.map Prod.snd)

/-- Sum-over-consecutive-segments reading of the collapse: every consecutive
pair of recorded timestamps contributes its duration times the rate recorded
at the earlier timestamp, and the last recorded rate runs until the child's
timestamp. -/
def segSum : List (ℚ × ℚ) → ℚ → ℚ
  | [], _ => 0
  | [(t, r)], c => (t - c) * r
  | (t1, r1) :: (t2, r2) :: rest, c => (t1 - t2) * r1 + segSum ((t2, r2) :: rest) c

lemma adjusted_dist_singleton (t r c : ℚ) :
    adjusted_dist [(t, r)] c = (t - c) * r := by
  simp [adjusted_dist, negDiff, dotQ]

lemma adjusted_dist_cons₂ (t1 r1 t2 r2 : ℚ) (rest : List (ℚ × ℚ)) (c : ℚ) :
    adjusted_dist ((t1, r1) :: (t2, r2) :: rest) c =
      (t1 - t2) * r1 + adjusted_dist ((t2, r2) :: rest) c := rfl

lemma adjusted_dist_eq_segSum (rl : List (ℚ × ℚ)) (c : ℚ) :
    adjusted_dist rl c = segSum rl c := by
  match rl with
  | [] => rfl
  | [(t, r)] => rw [adjusted_dist_singleton]; rfl
  | (t1, r1) :: (t2, r2) :: rest =>
      rw [adjusted_dist_cons₂, adjusted_dist_eq_segSum ((t2, r2) :: rest) c]
      rfl

lemma adjusted_dist_nonneg_zero (rest : List (ℚ × ℚ)) (t0 r0 : ℚ) (c : ℚ)
    (hs : List.Sorted (fun a b => b ≤ a) (((t0, r0) :: rest).map Prod.fst ++ [c]))
    (hp : ∀ p ∈ (t0, r0) :: rest, 0 < p.2) :
    0 ≤ adjusted_dist ((t0, r0) :: rest) c ∧
      (adjusted_dist ((t0, r0) :: rest) c = 0 ↔ t0 = c) := by
  induction rest generalizing t0 r0 with
  | nil =>
      have hr : 0 < r0 := hp (t0, r0) (List.mem_singleton.mpr rfl)
      have hc : c ≤ t0 := List.rel_of_sorted_cons hs c (by simp)
      rw [adjusted_dist_singleton]
      refine ⟨mul_nonneg (by linarith) hr.le, ?_⟩
      constructor
      · intro h
        rcases mul_eq_zero.mp h with h0 | h0
        · linarith
        · exact absurd h0 (ne_of_gt hr)
      · intro h
        rw [h, sub_self, zero_mul]
  | cons q rest ih =>
      obtain ⟨t1, r1⟩ := q
      have hs' : List.Sorted (fun a b => b ≤ a)
          (((t1, r1) :: rest).map Prod.fst ++ [c]) := List.Sorted.of_cons hs
      have hp' : ∀ p ∈ (t1, r1) :: rest, 0 < p.2 :=
        fun p hmem => hp p (List.mem_cons_of_mem _ hmem)
      obtain ⟨ihn, ihz⟩ := ih t1 r1 hs' hp'
      have hr : 0 < r0 := hp (t0, r0) (List.mem_cons_self _ _)
      have ht01 : t1 ≤ t0 := List.rel_of_sorted_cons hs t1 (by simp)
      have ht1c : c ≤ t1 := List.rel_of_sorted_cons hs' c (by simp)
      rw [adjusted_dist_cons₂]
      have hseg : 0 ≤ (t0 - t1) * r0 := mul_nonneg (by linarith) hr.le
      refine ⟨by linarith, ?_⟩
      constructor
      · intro h
        have h1 : (t0 - t1) * r0 = 0 := by linarith
        have h2 : adjusted_dist ((t1, r1) :: rest) c = 0 := by linarith
        have ht : t0 = t1 := by
          rcases mul_eq_zero.mp h1 with h0 | h0
          · linarith
          · exact absurd h0 (ne_of_gt hr)
        rw [ht]
        exact ihz.mp h2
      · intro h
        have ht : t0 = t1 := by linarith
        rw [ht, sub_self, zero_mul, zero_add]
        exact ihz.mpr (by linarith)

/-- C4: with a nonempty per-edge rate history starting at the parent's
timestamp, timestamps weakly decreasing down to the child's timestamp and
strictly positive rates (what `_divergent_rates` records on a well-formed
dated gene tree), the collapsed `dist` of `_adjust_distances` equals the sum
over consecutive history segments of duration times rate (last segment ending
at the child's timestamp), is nonnegative, and is zero iff the parent's and
the child's timestamps coincide; a zero-duration segment contributes zero
regardless of its rate.  The collapse is division free by construction. -/
theorem rates_C4_adjusted_dist (t0 r0 : ℚ) (rest : List (ℚ × ℚ)) (c : ℚ)
    (hs : List.Sorted (fun a b => b ≤ a) (((t0, r0) :: rest).map Prod.fst ++ [c]))
    (hp : ∀ p ∈ (t0, r0) :: rest, 0 < p.2) :
    adjusted_dist ((t0, r0) :: rest) c = segSum ((t0, r0) :: rest) c ∧
    0 ≤ adjusted_dist ((t0, r0) :: rest) c ∧
    (adjusted_dist ((t0, r0) :: rest) c = 0 ↔ t0 = c) ∧
    (∀ (t r r' : ℚ) (rl : List (ℚ × ℚ)) (c' : ℚ),
      adjusted_dist ((t, r) :: (t, r') :: rl) c' =
        adjusted_dist ((t, r') :: rl) c') := by
  obtain ⟨h1, h2⟩ := adjusted_dist_nonneg_zero rest t0 r0 c hs hp
  refine ⟨adjusted_dist_eq_segSum _ _, h1, h2, ?_⟩
  intro t r r' rl c'
  rw [adjusted_dist_cons₂, sub_self, zero_mul, zero_add]

/-- C4 (witness): the theorem applied to the concrete history
[(3, 2), (2, 1)] with child timestamp 1. -/
theorem rates_C4_witness :
    (∀ p ∈ [((3 : ℚ), (2 : ℚ)), (2, 1)], 0 < p.2) ∧
    0 ≤ adjusted_dist [((3 : ℚ), 2), (2, 1)] 1 ∧
    (adjusted_dist [((3 : ℚ), 2), (2, 1)] 1 = 0 ↔ (3 : ℚ) = 1) :=
  ⟨by decide,
   (rates_C4_adjusted_dist 3 2 [(2, 1)] 1 (by decide) (by decide)).2.1,
   (rates_C4_adjusted_dist 3 2 [(2, 1)] 1 (by decide) (by decide)).2.2.1⟩

/-- Transient conserved/divergent tag of `_divergent_rates`
(`EvolutionRates.py`). -/
inductive RState where
  | conserved
  | divergent
deriving DecidableEq, Repr

/-- Lookup in the `marked` dictionary of `_divergent_rates`.  The dictionary
is initialised with `conserved` for every node of the tree, so an absent key
reads as `conserved`. -/
def getMark (marked : List (Nat × RState)) (v : Nat) : RState :=
  ((marked.find? (fun p => p.1 == v)).map Prod.snd).getD .conserved

/-- Assignment `marked[v] = s` on the dictionary model: replaces the entry of
an existing key, otherwise appends it. -/
def setMark (marked : List (Nat × RState)) (v : Nat) (s : RState) :
    List (Nat × RState) :=
  if marked.any (fun p => p.1 == v) then
    marked.map (fun p => if p.1 == v then (v, s) else p)
  else marked ++ [(v, s)]

/-- Lookup of the rate history of the edge (v.parent, v) in the `rates`
dictionary of `_divergent_rates`; the edge is keyed here by its child `v`
(each child determines its in-edge uniquely).  The dictionary is initialised
with `[]` for every edge, so an absent key reads as `[]`. -/
def getHist (rates : List (Nat × List (ℚ × ℚ))) (v : Nat) : List (ℚ × ℚ) :=
  ((rates.find? (fun p => p.1 == v)).map Prod.snd).getD []

/-- Append `rates[(v.parent, v)].append((t, r))` on the dictionary model. -/
def appendRate (rates : List (Nat × List (ℚ × ℚ))) (v : Nat) (t r : ℚ) :
    List (Nat × List (ℚ × ℚ)) :=
  if rates.any (fun p => p.1 == v) then
    rates.map (fun p => if p.1 == v then (v, p.2 ++ [(t, r)]) else p)
  else rates ++ [(v, [(t, r)])]

/-- Shallow embedding of the `L` (loss) branch of `_divergent_rates`
(`EvolutionRates.py` lines 261 to 267): `u` is the lost gene,
`counter = gene_counter[u.color]` the live genes of u's species branch;
remove `u` from the counter (`list.remove`: first occurrence), and if exactly
one gene `v` remains that is marked divergent, re-mark it conserved and append
(u.tstamp, 1.0) to the rate history of v's in-edge. -/
def lossStep (u : Nat) (utstamp : ℚ) (counter : List Nat)
    (marked : List (Nat × RState)) (rates : List (Nat × List (ℚ × ℚ))) :
    List Nat × List (Nat × RState) × List (Nat × List (ℚ × ℚ)) :=
  let counter' := counter.erase u
  match counter' with
  | [v] =>
      if getMark marked v = .divergent then
        (counter', setMark marked v .conserved, appendRate rates v utstamp 1)
      else (counter', marked, rates)
  | _ => (counter', marked, rates)

lemma any_eq_false_of_not {α : Type} (l : List α) (p : α → Bool)
    (h : ¬l.any p = true) : l.any p = false := by
  cases hx : l.any p
  · rfl
  · exact absurd hx h

lemma find?_of_any_eq_false {α : Type} (l : List (Nat × α)) (v : Nat)
    (h : l.any (fun p => p.1 == v) = false) :
    l.find? (fun p => p.1 == v) = Option.none := by
  rw [List.find?_eq_none]
  intro p hp
  have := List.any_eq_false.mp h p hp
  simpa using this

lemma getMark_setMark_self (marked : List (Nat × RState)) (v : Nat) (s : RState) :
    getMark (setMark marked v s) v = s := by
  unfold getMark setMark
  by_cases h : marked.any (fun p => p.1 == v) = true
  · rw [if_pos h]
    induction marked with
    | nil => simp at h
    | cons q qs ih =>
        rw [List.map_cons]
        by_cases hq : q.1 = v
        · have e1 : List.find? (fun p : Nat × RState => p.1 == v)
              ((v, s) :: qs.map (fun p => if (p.1 == v) = true then (v, s) else p))
                = some (v, s) :=
            List.find?_cons_of_pos _ (by simp)
          rw [if_pos (by simpa using hq), e1]
          rfl
        · have e1 : List.find? (fun p : Nat × RState => p.1 == v)
              (q :: qs.map (fun p => if (p.1 == v) = true then (v, s) else p))
                = List.find? (fun p => p.1 == v)
                    (qs.map (fun p => if (p.1 == v) = true then (v, s) else p)) :=
            List.find?_cons_of_neg _ (by simpa using hq)
          rw [if_neg (by simpa using hq), e1]
          apply ih
          have hq' : (q.1 == v) = false := by simpa using hq
          simpa [List.any_cons, hq'] using h
  · rw [if_neg h]
    have e1 : List.find? (fun p : Nat × RState => p.1 == v) [(v, s)] = some (v, s) :=
      List.find?_cons_of_pos _ (by simp)
    rw [List.find?_append, find?_of_any_eq_false marked v (any_eq_false_of_not _ _ h),
      Option.none_or, e1]
    rfl

lemma getMark_setMark_ne (marked : List (Nat × RState)) (v w : Nat) (s : RState)
    (hvw : w ≠ v) :
    getMark (setMark marked v s) w = getMark marked w := by
  unfold getMark setMark
  by_cases h : marked.any (fun p => p.1 == v) = true
  · rw [if_pos h]
    clear h
    induction marked with
    | nil => rfl
    | cons q qs ih =>
        rw [List.map_cons]
        by_cases hq : q.1 = v
        · have e1 : List.find? (fun p : Nat × RState => p.1 == w)
              ((v, s) :: qs.map (fun p => if (p.1 == v) = true then (v, s) else p))
                = List.find? (fun p => p.1 == w)
                    (qs.map (fun p => if (p.1 == v) = true then (v, s) else p)) :=
            List.find?_cons_of_neg _ (by simpa using fun hc : v = w => hvw hc.symm)
          have e2 : List.find? (fun p : Nat × RState => p.1 == w) (q :: qs)
              = List.find? (fun p => p.1 == w) qs :=
            List.find?_cons_of_neg _
              (by simpa using fun hc : q.1 = w => hvw (hc ▸ hq ▸ rfl))
          rw [if_pos (by simpa using hq), e1, e2]
          exact ih
        · by_cases hw : q.1 = w
          · have e1 : List.find? (fun p : Nat × RState => p.1 == w)
                (q :: qs.map (fun p => if (p.1 == v) = true then (v, s) else p))
                  = some q :=
              List.find?_cons_of_pos _ (by simpa using hw)
            have e2 : List.find? (fun p : Nat × RState => p.1 == w) (q :: qs)
                = some q :=
              List.find?_cons_of_pos _ (by simpa using hw)
            rw [if_neg (by simpa using hq), e1, e2]
          · have e1 : List.find? (fun p : Nat × RState => p.1 == w)
                (q :: qs.map (fun p => if (p.1 == v) = true then (v, s) else p))
                  = List.find? (fun p => p.1 == w)
                      (qs.map (fun p => if (p.1 == v) = true then (v, s) else p)) :=
              List.find?_cons_of_neg _ (by simpa using hw)
            have e2 : List.find? (fun p : Nat × RState => p.1 == w) (q :: qs)
                = List.find? (fun p => p.1 == w) qs :=
              List.find?_cons_of_neg _ (by simpa using hw)
            rw [if_neg (by simpa using hq), e1, e2]
            exact ih
  · rw [if_neg h]
    rw [List.find?_append]
    rcases hf : marked.find? (fun p => p.1 == w) with _ | q
    · have e1 : List.find? (fun p : Nat × RState => p.1 == w) [(v, s)] = Option.none :=
        List.find?_cons_of_neg _ (by simpa using fun hc : v = w => hvw hc.symm)
      rw [hf, Option.none_or, e1]
    · rw [hf]
      rfl

lemma getHist_appendRate_self (rates : List (Nat × List (ℚ × ℚ))) (v : Nat)
    (t r : ℚ) :
    getHist (appendRate rates v t r) v = getHist rates v ++ [(t, r)] := by
  unfold getHist appendRate
  by_cases h : rates.any (fun p => p.1 == v) = true
  · rw [if_pos h]
    induction rates with
    | nil => simp at h
    | cons q qs ih =>
        rw [List.map_cons]
        by_cases hq : q.1 = v
        · have e1 : List.find? (fun p : Nat × List (ℚ × ℚ) => p.1 == v)
              ((v, q.2 ++ [(t, r)]) ::
                qs.map (fun p => if (p.1 == v) = true then (v, p.2 ++ [(t, r)]) else p))
                = some (v, q.2 ++ [(t, r)]) :=
            List.find?_cons_of_pos _ (by simp)
          have e2 : List.find? (fun p : Nat × List (ℚ × ℚ) => p.1 == v) (q :: qs)
              = some q :=
            List.find?_cons_of_pos _ (by simpa using hq)
          rw [if_pos (by simpa using hq), e1, e2]
          rfl
        · have e1 : List.find? (fun p : Nat × List (ℚ × ℚ) => p.1 == v)
              (q :: qs.map (fun p => if (p.1 == v) = true then (v, p.2 ++ [(t, r)]) else p))
                = List.find? (fun p => p.1 == v)
                    (qs.map (fun p => if (p.1 == v) = true then (v, p.2 ++ [(t, r)]) else p)) :=
            List.find?_cons_of_neg _ (by simpa using hq)
          have e2 : List.find? (fun p : Nat × List (ℚ × ℚ) => p.1 == v) (q :: qs)
              = List.find? (fun p => p.1 == v) qs :=
            List.find?_cons_of_neg _ (by simpa using hq)
          rw [if_neg (by simpa using hq), e1, e2]
          apply ih
          have hq' : (q.1 == v) = false := by simpa using hq
          simpa [List.any_cons, hq'] using h
  · rw [if_neg h]
    have e1 : List.find? (fun p : Nat × List (ℚ × ℚ) => p.1 == v) [(v, [(t, r)])]
        = some (v, [(t, r)]) :=
      List.find?_cons_of_pos _ (by simp)
    rw [List.find?_append, find?_of_any_eq_false rates v (any_eq_false_of_not _ _ h),
      Option.none_or, e1]
    rfl

lemma getHist_appendRate_ne (rates : List (Nat × List (ℚ × ℚ))) (v w : Nat)
    (t r : ℚ) (hvw : w ≠ v) :
    getHist (appendRate rates v t r) w = getHist rates w := by
  unfold getHist appendRate
  by_cases h : rates.any (fun p => p.1 == v) = true
  · rw [if_pos h]
    clear h
    induction rates with
    | nil => rfl
    | cons q qs ih =>
        rw [List.map_cons]
        by_cases hq : q.1 = v
        · have e1 : List.find? (fun p : Nat × List (ℚ × ℚ) => p.1 == w)
              ((v, q.2 ++ [(t, r)]) ::
                qs.map (fun p => if (p.1 == v) = true then (v, p.2 ++ [(t, r)]) else p))
                = List.find? (fun p => p.1 == w)
                    (qs.map (fun p => if (p.1 == v) = true then (v, p.2 ++ [(t, r)]) else p)) :=
            List.find?_cons_of_neg _ (by simpa using fun hc : v = w => hvw hc.symm)
          have e2 : List.find? (fun p : Nat × List (ℚ × ℚ) => p.1 == w) (q :: qs)
              = List.find? (fun p => p.1 == w) qs :=
            List.find?_cons_of_neg _
              (by simpa using fun hc : q.1 = w => hvw (hc ▸ hq ▸ rfl))
          rw [if_pos (by simpa using hq), e1, e2]
          exact ih
        · by_cases hw : q.1 = w
          · have e1 : List.find? (fun p : Nat × List (ℚ × ℚ) => p.1 == w)
                (q :: qs.map (fun p => if (p.1 == v) = true then (v, p.2 ++ [(t, r)]) else p))
                  = some q :=
              List.find?_cons_of_pos _ (by simpa using hw)
            have e2 : List.find? (fun p : Nat × List (ℚ × ℚ) => p.1 == w) (q :: qs)
                = some q :=
              List.find?_cons_of_pos _ (by simpa using hw)
            rw [if_neg (by simpa using hq), e1, e2]
          · have e1 : List.find? (fun p : Nat × List (ℚ × ℚ) => p.1 == w)
                (q :: qs.map (fun p => if (p.1 == v) = true then (v, p.2 ++ [(t, r)]) else p))
                  = List.find? (fun p => p.1 == w)
                      (qs.map (fun p => if (p.1 == v) = true then (v, p.2 ++ [(t, r)]) else p)) :=
              List.find?_cons_of_neg _ (by simpa using hw)
            have e2 : List.find? (fun p : Nat × List (ℚ × ℚ) => p.1 == w) (q :: qs)
                = List.find? (fun p => p.1 == w) qs :=
              List.find?_cons_of_neg _ (by simpa using hw)
            rw [if_neg (by simpa using hq), e1, e2]
            exact ih
  · rw [if_neg h]
    rw [List.find?_append]
    rcases hf : rates.find? (fun p => p.1 == w) with _ | q
    · have e1 : List.find? (fun p : Nat × List (ℚ × ℚ) => p.1 == w) [(v, [(t, r)])]
          = Option.none :=
        List.find?_cons_of_neg _ (by simpa using fun hc : v = w => hvw hc.symm)
      rw [hf, Option.none_or, e1]
    · rw [hf]
      rfl

/-- C5: at a loss event `u`, after removing `u` from its species branch's
live-gene counter, (i) if exactly one gene `v` remains and it is marked
divergent, `v` is re-marked conserved and (u.tstamp, 1.0) is appended to the
rate history of v's in-edge; (ii) if exactly one gene remains but it is not
divergent, marks and rate histories are unchanged; (iii) if the remaining
count differs from one, marks and rate histories are unchanged.  Moreover the
re-marking and the append touch exactly the surviving gene's entry. -/
theorem rates_C5_loss_reversion (u : Nat) (ts : ℚ) (counter : List Nat)
    (marked : List (Nat × RState)) (rates : List (Nat × List (ℚ × ℚ))) :
    (∀ v, counter.erase u = [v] →
      (getMark marked v = .divergent →
        lossStep u ts counter marked rates =
          ([v], setMark marked v .conserved, appendRate rates v ts 1) ∧
        getMark (setMark marked v .conserved) v = .conserved ∧
        getHist (appendRate rates v ts 1) v = getHist rates v ++ [(ts, 1)] ∧
        (∀ w, w ≠ v → getMark (setMark marked v .conserved) w = getMark marked w)) ∧
      (getMark marked v ≠ .divergent →
        lossStep u ts counter marked rates = ([v], marked, rates))) ∧
    ((counter.erase u).length ≠ 1 →
      lossStep u ts counter marked rates = (counter.erase u, marked, rates)) := by
  constructor
  · intro v hv
    constructor
    · intro hdiv
      refine ⟨?_, getMark_setMark_self marked v .conserved,
        getHist_appendRate_self rates v ts 1,
        fun w hw => getMark_setMark_ne marked v w .conserved hw⟩
      unfold lossStep
      rw [hv]
      simp only [hdiv, if_true]
    · intro hdiv
      unfold lossStep
      rw [hv]
      simp only [if_neg hdiv]
  · intro hlen
    unfold lossStep
    rcases hc : counter.erase u with _ | ⟨v, _ | ⟨w, rest⟩⟩
    · rfl
    · exact absurd (by rw [hc]; rfl) hlen
    · rfl

/-- C5 (witness): a species branch with live genes 1 and 2 where gene 1 is
lost at time 3 while gene 2 is divergent: gene 2 is re-marked conserved and a
rate-1 segment starting at the loss time is appended to its edge history. -/
theorem rates_C5_witness :
    lossStep 1 3 [1, 2] [(2, .divergent)] [(2, [(5, 2)])] =
      ([2], [(2, .conserved)], [(2, [(5, 2), (3, 1)])]) :=
  (((rates_C5_loss_reversion 1 3 [1, 2] [(2, .divergent)] [(2, [(5, 2)])]).1
    2 (by decide)).1 (by decide)).1

/-- Child of an HGT node as read by `_divergent_rates`: its node id, its
`transferred` flag and its color. -/
structure ChildInfo where
  id : Nat
  transferred : Bool
  color : Color
deriving DecidableEq, Repr

/-- Removal `gene_counter[k].remove(g)` on the counter keyed by species edges
(`list.remove` deletes the first occurrence; the source assumes `g` is
present). -/
def counterRemove (cnt : List ((Nat × Nat) × List Nat)) (k : Nat × Nat)
    (g : Nat) : List ((Nat × Nat) × List Nat) :=
  cnt.map (fun p => if p.1 == k then (p.1, p.2.erase g) else p)

/-- Append `gene_counter[k].append(g)` on the counter keyed by species edges
(the source assumes the key exists in the initialised counter). -/
def counterAppend (cnt : List ((Nat × Nat) × List Nat)) (k : Nat × Nat)
    (g : Nat) : List ((Nat × Nat) × List Nat) :=
  if cnt.any (fun p => p.1 == k) then
    cnt.map (fun p => if p.1 == k then (p.1, p.2 ++ [g]) else p)
  else cnt ++ [(k, [g])]

/-- Lookup `S_parents[c]` of `_divergent_rates`: the label of the parent of
the species-tree node labelled `c`. -/
def lookupParent (sparents : List (Nat × Nat)) (c : Nat) : Nat :=
  ((sparents.find? (fun p => p.1 == c)).map Prod.snd).getD 0

/-- Shallow embedding of the `H` (horizontal gene transfer) branch of
`_divergent_rates` (`EvolutionRates.py` lines 269 to 292).  The children are
swapped so that `v2` is the transferred copy; the untransferred copy `v1`
inherits the parent's mark and, when `u` has a parent, continues with the
last recorded rate of u's own in-edge (`rates[(u.parent, u)][-1][1]`; an
empty history would raise an IndexError, modelled by `Option.none`); the
transferred copy `v2` is forced divergent and receives a freshly drawn rate
factor.  `rates` is keyed by the child of each edge, `σ` is the sampler's
draw stream and `ix` the index of its next draw. -/
def hgtStep (uid : Nat) (utstamp : ℚ) (ucolor : Nat × Nat)
    (uparent : Option Nat) (c1 c2 : ChildInfo) (sparents : List (Nat × Nat))
    (marked : List (Nat × RState)) (rates : List (Nat × List (ℚ × ℚ)))
    (counter : List ((Nat × Nat) × List Nat)) (σ : ℕ → ℚ) (ix : ℕ) :
    Option (List (Nat × RState) × List (Nat × List (ℚ × ℚ)) ×
      List ((Nat × Nat) × List Nat) × ℕ) :=
  let vs := if c1.transferred then (c2, c1) else (c1, c2)
  let v1 := vs.1
  let v2 := vs.2
  let marked1 := setMark marked v1.id (getMark marked uid)
  let counter1 := counterAppend (counterRemove counter ucolor uid) ucolor v1.id
  let step1 : Option (List (Nat × List (ℚ × ℚ)) × ℕ) :=
    match uparent with
    | some _ =>
        match (getHist rates uid).getLast? with
        | some last => some (appendRate rates v1.id utstamp last.2, ix)
        | none => Option.none
    | none =>
        if getMark marked1 v1.id = .divergent then
          some (appendRate rates v1.id utstamp (σ ix), ix + 1)
        else some (appendRate rates v1.id utstamp 1, ix)
  match step1 with
  | none => Option.none
  | some (rates1, ix1) =>
      let marked2 := setMark marked1 v2.id .divergent
      let key2 : Nat × Nat :=
        match v2.color with
        | .pair a b => (a, b)
        | .single c => (lookupParent sparents c, c)
      let counter2 := counterAppend counter1 key2 v2.id
      let r2 := if getMark marked2 v2.id = .divergent then σ ix1 else 1
      let ix2 := if getMark marked2 v2.id = .divergent then ix1 + 1 else ix1
      some (marked2, appendRate rates1 v2.id utstamp r2, counter2, ix2)

/-- C6: at an HGT node `u` with a parent whose in-edge history last recorded
the rate `rl`, and with children `c1` (not transferred) and `c2`
(transferred): the step succeeds consuming exactly one fresh draw; `c1`
inherits u's mark and its in-edge history continues with the rate `rl` of u's
own in-edge (no new factor drawn for it); `c2` is forced divergent and its
in-edge history starts with the freshly drawn factor `σ ix`; and passing the
children in the other order gives the identical result (the code swaps them
back). -/
theorem rates_C6_hgt (uid : Nat) (ts : ℚ) (ucolor : Nat × Nat) (p : Nat)
    (c1 c2 : ChildInfo) (sparents : List (Nat × Nat))
    (marked : List (Nat × RState)) (rates : List (Nat × List (ℚ × ℚ)))
    (counter : List ((Nat × Nat) × List Nat)) (σ : ℕ → ℚ) (ix : ℕ)
    (tl rl : ℚ)
    (h1 : c1.transferred = false) (h2 : c2.transferred = true)
    (hne : c1.id ≠ c2.id)
    (hlast : (getHist rates uid).getLast? = some (tl, rl)) :
    ∃ m2 r2 cnt2,
      hgtStep uid ts ucolor (some p) c1 c2 sparents marked rates counter σ ix =
        some (m2, r2, cnt2, ix + 1) ∧
      getMark m2 c1.id = getMark marked uid ∧
      getHist r2 c1.id = getHist rates c1.id ++ [(ts, rl)] ∧
      getMark m2 c2.id = RState.divergent ∧
      getHist r2 c2.id = getHist rates c2.id ++ [(ts, σ ix)] ∧
      hgtStep uid ts ucolor (some p) c2 c1 sparents marked rates counter σ ix =
        hgtStep uid ts ucolor (some p) c1 c2 sparents marked rates counter σ ix := by
  have hdiv : getMark (setMark (setMark marked c1.id (getMark marked uid))
      c2.id .divergent) c2.id = RState.divergent :=
    getMark_setMark_self _ _ _
  refine ⟨setMark (setMark marked c1.id (getMark marked uid)) c2.id .divergent,
    appendRate (appendRate rates c1.id ts rl) c2.id ts (σ ix),
    counterAppend
      (counterAppend (counterRemove counter ucolor uid) ucolor c1.id)
      (match c2.color with
        | .pair a b => (a, b)
        | .single c => (lookupParent sparents c, c)) c2.id,
    ?_, ?_, ?_, ?_, ?_, ?_⟩
  · simp only [hgtStep, h1, Bool.false_eq_true, if_false, hlast, hdiv, if_pos]
  · rw [getMark_setMark_ne _ _ _ _ hne, getMark_setMark_self]
  · rw [getHist_appendRate_ne _ _ _ _ _ hne, getHist_appendRate_self]
  · exact hdiv
  · rw [getHist_appendRate_self, getHist_appendRate_ne _ _ _ _ _ (Ne.symm hne)]
  · simp only [hgtStep, h1, h2, Bool.false_eq_true, if_false, if_true]

/-- C6 (witness): the theorem applied to a concrete HGT event: node 1 at time
5 on species edge (1, 2), parent 0 with in-edge history [(7, 4)], children 2
(kept) and 3 (transferred), draw stream constantly 9. -/
theorem rates_C6_witness :
    ∃ m2 r2 cnt2,
      hgtStep 1 5 (1, 2) (some 0) ⟨2, false, .pair 1 2⟩ ⟨3, true, .pair 1 3⟩
          [] [] [(1, [(7, 4)])] [((1, 2), [1])] (fun _ => 9) 0 =
        some (m2, r2, cnt2, 0 + 1) ∧
      getMark m2 2 = getMark [] 1 ∧
      getHist r2 2 = getHist [(1, [(7, 4)])] 2 ++ [(5, 4)] ∧
      getMark m2 3 = RState.divergent ∧
      getHist r2 3 = getHist [(1, [(7, 4)])] 3 ++ [(5, 9)] ∧
      hgtStep 1 5 (1, 2) (some 0) ⟨3, true, .pair 1 3⟩ ⟨2, false, .pair 1 2⟩
          [] [] [(1, [(7, 4)])] [((1, 2), [1])] (fun _ => 9) 0 =
        hgtStep 1 5 (1, 2) (some 0) ⟨2, false, .pair 1 2⟩ ⟨3, true, .pair 1 3⟩
          [] [] [(1, [(7, 4)])] [((1, 2), [1])] (fun _ => 9) 0 :=
  rates_C6_hgt 1 5 (1, 2) 0 ⟨2, false, .pair 1 2⟩ ⟨3, true, .pair 1 3⟩
    [] [] [(1, [(7, 4)])] [((1, 2), [1])] (fun _ => 9) 0 7 4
    rfl rfl (by decide) (by decide)

/-- Value of the `colors` argument of `random_colored_tree`
(`PhyloTreeTools.py`): a Python int, an iterable (of reconciliation labels),
or a value that is neither. -/
inductive PyColors where
  | int (k : Int)
  | iterable (xs : List Int)
  | notIterable
deriving DecidableEq, Repr

/-- Python exception raised by `random_colored_tree`. -/
inductive PyErr where
  | typeError (msg : String)
  | valueError (msg : String)
deriving DecidableEq, Repr

/-- Number of requested colors: the value of an int request (a negative int
yields the empty range, hence zero colors), the length of an iterable. -/
def colorCount : PyColors → Nat
  | .int k => k.toNat
  | .iterable xs => xs.length
  | .notIterable => 0

/-- Leaf coloring of `random_colored_tree` (`PhyloTreeTools.py`): with
`force_all_colors` the leaf at the i-th position of a random permutation gets
the i-th color while i < len(colors) and a random choice otherwise; without
it every leaf gets a random choice.  `perm` and `choice` model the random
index streams (`random.choice` on an empty color list, which would raise in
Python, is modelled by a default color 0). -/
def colorAssignment (cs : List Int) (force : Bool) (leaves : List Nat)
    (perm choice : ℕ → ℕ) : List (Nat × Int) :=
  if force then
    (List.range leaves.length).map (fun i =>
      if i < cs.length then
        (leaves.getD (perm i % leaves.length) 0, cs.getD i 0)
      else
        (leaves.getD (perm i % leaves.length) 0, cs.getD (choice i % cs.length) 0))
  else
    (List.range leaves.length).map (fun i =>
      (leaves.getD i 0, cs.getD (choice i % cs.length) 0))

/-- Shallow embedding of the argument checking and coloring of
`random_colored_tree(n, colors, binary, force_all_colors)`
(`PhyloTreeTools.py` lines 405 to 431).  `Tree.random_tree(n, binary)` (an
external collaborator) runs first and produces a fresh local tree, modelled
by the `leaves` argument; no caller-visible state exists before the checks.
An int `colors` is expanded to `[1, ..., colors]`; a non-int non-iterable
raises a TypeError; more colors than `n` with `force_all_colors` raises a
ValueError; otherwise the leaves are colored and returned. -/
def random_colored_tree (n : Nat) (colors : PyColors) (force_all_colors : Bool)
    (leaves : List Nat) (perm choice : ℕ → ℕ) :
    Except PyErr (List (Nat × Int)) :=
  match colors with
  | .notIterable => .error (.typeError "colors must be of type int or iterable")
  | .int k =>
      let cs := (List.range k.toNat).map (fun (i : Nat) => (i : Int) + 1)
      if cs.length > n && force_all_colors then
        .error (.valueError "cannot force all colors since #colors > n")
      else .ok (colorAssignment cs force_all_colors leaves perm choice)
  | .iterable xs =>
      if xs.length > n && force_all_colors then
        .error (.valueError "cannot force all colors since #colors > n")
      else .ok (colorAssignment xs force_all_colors leaves perm choice)

/-- C8: `random_colored_tree` raises a TypeError iff `colors` is neither an
int nor an iterable; it raises a ValueError iff the number of requested
colors exceeds `n` while `force_all_colors` is set; and it returns normally
(no partial caller-visible state: errors precede any coloring) iff `colors`
is an int or iterable whose number of colors is at most `n`, or
`force_all_colors` is false. -/
theorem ptt_C8_random_colored_tree_errors (n : Nat) (colors : PyColors)
    (force : Bool) (leaves : List Nat) (perm choice : ℕ → ℕ) :
    ((∃ m, random_colored_tree n colors force leaves perm choice =
        .error (.typeError m)) ↔ colors = .notIterable) ∧
    ((∃ m, random_colored_tree n colors force leaves perm choice =
        .error (.valueError m)) ↔
      (colors ≠ .notIterable ∧ n < colorCount colors ∧ force = true)) ∧
    ((∃ a, random_colored_tree n colors force leaves perm choice = .ok a) ↔
      (colors ≠ .notIterable ∧ (colorCount colors ≤ n ∨ force = false))) := by
  rcases colors with k | xs | _
  · have hres : random_colored_tree n (.int k) force leaves perm choice =
        if k.toNat > n && force then
          .error (.valueError "cannot force all colors since #colors > n")
        else .ok (colorAssignment
          ((List.range k.toNat).map (fun (i : Nat) => (i : Int) + 1))
          force leaves perm choice) := by
      simp only [random_colored_tree, List.length_map, List.length_range]
    rw [hres]
    by_cases hn : n < k.toNat <;> by_cases hfo : force = true
    · rw [if_pos (by simp [hn, hfo])]
      simp [colorCount, hn, hfo, Nat.not_le.mpr hn]
    · rw [if_neg (by simp [hfo])]
      simp [colorCount, hfo]
    · rw [if_neg (by simp only [Bool.and_eq_true, decide_eq_true_eq]; rintro ⟨h, _⟩; omega)]
      simp [colorCount, hn, Nat.le_of_not_lt hn]
    · rw [if_neg (by simp [hfo])]
      simp [colorCount, hfo]
  · have hres : random_colored_tree n (.iterable xs) force leaves perm choice =
        if xs.length > n && force then
          .error (.valueError "cannot force all colors since #colors > n")
        else .ok (colorAssignment xs force leaves perm choice) := rfl
    rw [hres]
    by_cases hn : n < xs.length <;> by_cases hfo : force = true
    · rw [if_pos (by simp [hn, hfo])]
      simp [colorCount, hn, hfo, Nat.not_le.mpr hn]
    · rw [if_neg (by simp [hfo])]
      simp [colorCount, hfo]
    · rw [if_neg (by simp only [Bool.and_eq_true, decide_eq_true_eq]; rintro ⟨h, _⟩; omega)]
      simp [colorCount, hn, Nat.le_of_not_lt hn]
    · rw [if_neg (by simp [hfo])]
      simp [colorCount, hfo]
  · have hres : random_colored_tree n .notIterable force leaves perm choice =
        .error (.typeError "colors must be of type int or iterable") := rfl
    rw [hres]
    simp

/-- Lookup in a dictionary keyed by node labels (the `node_rates` and
`edge_rates` dicts of `autocorrelation_factors`). -/
def getKeyR (l : List (Nat × ℝ)) (k : Nat) : Option ℝ :=
  (l.find? (fun p => p.1 == k)).map Prod.snd

/-- Assignment `d[k] = x` on the dictionary model: replaces the entry of an
existing key, otherwise appends it. -/
def setKeyR (l : List (Nat × ℝ)) (k : Nat) (x : ℝ) : List (Nat × ℝ) :=
  if l.any (fun p => p.1 == k) then
    l.map (fun p => if p.1 == k then (k, x) else p)
  else l ++ [(k, x)]

/-- State of the loop of `autocorrelation_factors` (`EvolutionRates.py`):
the two dictionaries and the number of normal draws consumed so far. -/
structure ACState where
  node_rates : List (Nat × ℝ)
  edge_rates : List (Nat × ℝ)
  ix : ℕ

mutual

/-- Shallow embedding of the preorder loop of `autocorrelation_factors`
(`EvolutionRates.py` lines 335 to 354) at one node: the root (no parent)
gets node and edge rate 1.0; a non-root node `v` with parent labelled `p`
draws `node_rate[v] = exp(normal(mu, sqrt(var)))` with
`var = variance * v.dist` and `mu = log(node_rates[p]) - var/2`, and gets
`edge_rate[v] = (node_rates[p] + node_rate[v]) / 2`.  The draw
`np.random.normal(mu, s)` is modelled as `mu + s * ξ i` where `ξ` is the
stream of standard normal draws and `i` the index of the next draw.  The
`.getD 1` default of the parent lookup is never taken in a preorder
traversal, where the parent is processed first. -/
noncomputable def acNode (variance : ℝ) (ξ : ℕ → ℝ) (pl : Option Nat) :
    PTree → ACState → ACState
  | .node d cs, st =>
      match pl with
      | Option.none =>
          acChildren variance ξ d.label cs
            ⟨setKeyR st.node_rates d.label 1, setKeyR st.edge_rates d.label 1,
             st.ix⟩
      | some p =>
          let var := variance * (d.dist : ℝ)
          let pr := (getKeyR st.node_rates p).getD 1
          let mu := Real.log pr - var / 2
          let nr := Real.exp (mu + Real.sqrt var * ξ st.ix)
          acChildren variance ξ d.label cs
            ⟨setKeyR st.node_rates d.label nr,
             setKeyR st.edge_rates d.label ((pr + nr) / 2), st.ix + 1⟩

/-- Continuation of the preorder loop over a list of subtrees whose parent is
labelled `pl`. -/
noncomputable def acChildren (variance : ℝ) (ξ : ℕ → ℝ) (pl : Nat) :
    List PTree → ACState → ACState
  | [], st => st
  | c :: rest, st =>
      acChildren variance ξ pl rest (acNode variance ξ (some pl) c st)

end

/-- Shallow embedding of `autocorrelation_factors(tree, variance)`
(`EvolutionRates.py`): returns the pair of dictionaries `(node_rates,
edge_rates)` built in a single preorder (top-down, parent before children)
pass. -/
noncomputable def autocorrelation_factors (tree : PTree) (variance : ℝ)
    (ξ : ℕ → ℝ) : List (Nat × ℝ) × List (Nat × ℝ) :=
  let st := acNode variance ξ Option.none tree ⟨[], [], 0⟩
  (st.node_rates, st.edge_rates)

/-- Node rate drawn at a node with attributes `d` whose parent currently has
rate `pr`, using the draw of index `ix`:
`exp(log(pr) - var/2 + sqrt(var) * ξ ix)` with `var = variance * d.dist`. -/
noncomputable def nodeRateFormula (variance : ℝ) (ξ : ℕ → ℝ) (pr : ℝ)
    (ix : ℕ) (d : NodeData) : ℝ :=
  Real.exp (Real.log pr - variance * (d.dist : ℝ) / 2 +
    Real.sqrt (variance * (d.dist : ℝ)) * ξ ix)

mutual

/-- Entries appended to the two dictionaries while processing a subtree whose
parent currently has node rate `pr`, starting at draw index `ix`, in preorder
order, together with the next free draw index. -/
noncomputable def acDelta (variance : ℝ) (ξ : ℕ → ℝ) (pr : ℝ) (ix : ℕ) :
    PTree → List (Nat × ℝ) × List (Nat × ℝ) × ℕ
  | .node d cs =>
      let nr := nodeRateFormula variance ξ pr ix d
      let sub := acDeltaChildren variance ξ nr (ix + 1) cs
      ((d.label, nr) :: sub.1, (d.label, (pr + nr) / 2) :: sub.2.1, sub.2.2)

/-- Entries appended while processing a list of sibling subtrees in order. -/
noncomputable def acDeltaChildren (variance : ℝ) (ξ : ℕ → ℝ) (pr : ℝ)
    (ix : ℕ) : List PTree → List (Nat × ℝ) × List (Nat × ℝ) × ℕ
  | [] => ([], [], ix)
  | c :: rest =>
      let d1 := acDelta variance ξ pr ix c
      let d2 := acDeltaChildren variance ξ pr d1.2.2 rest
      (d1.1 ++ d2.1, d1.2.1 ++ d2.2.1, d2.2.2)

end

mutual

/-- Nodes of a tree in preorder (the order of `tree.preorder()`). -/
def preorderData : PTree → List NodeData
  | .node d cs => d :: preorderDataChildren cs

/-- Nodes of a list of subtrees in preorder. -/
def preorderDataChildren : List PTree → List NodeData
  | [] => []
  | c :: rest => preorderData c ++ preorderDataChildren rest

end

/-- Labels of a tree in preorder. -/
def labelsOf (t : PTree) : List Nat :=
  (preorderData t).map (fun d => d.label)

/-- Labels of a list of subtrees in preorder. -/
def labelsOfChildren (cs : List PTree) : List Nat :=
  (preorderDataChildren cs).map (fun d => d.label)

mutual

/-- All (parent, child) attribute pairs of the edges of a tree. -/
def parentPairs : PTree → List (NodeData × NodeData)
  | .node d cs => parentPairsChildren d cs

/-- All (parent, child) pairs of edges inside a list of subtrees of a node
with attributes `d`, including the edges from `d` to the subtree roots. -/
def parentPairsChildren : NodeData → List PTree → List (NodeData × NodeData)
  | _, [] => []
  | d, c :: rest =>
      (d, c.data) :: (parentPairs c ++ parentPairsChildren d rest)

end

lemma labelsOf_node (d : NodeData) (cs : List PTree) :
    labelsOf (.node d cs) = d.label :: labelsOfChildren cs := rfl

lemma labelsOfChildren_cons (c : PTree) (rest : List PTree) :
    labelsOfChildren (c :: rest) = labelsOf c ++ labelsOfChildren rest := by
  unfold labelsOfChildren labelsOf
  rw [preorderDataChildren, List.map_append]

lemma find?_eq_none_of_not_mem_keys {α : Type} (l : List (Nat × α)) (k : Nat)
    (h : k ∉ l.map Prod.fst) :
    l.find? (fun p => p.1 == k) = Option.none := by
  rw [List.find?_eq_none]
  intro p hp
  simp only [beq_iff_eq]
  intro hc
  exact h (List.mem_map.mpr ⟨p, hp, hc⟩)

lemma any_eq_false_of_not_mem_keys {α : Type} (l : List (Nat × α)) (k : Nat)
    (h : k ∉ l.map Prod.fst) :
    l.any (fun p => p.1 == k) = false := by
  rw [List.any_eq_false]
  intro p hp
  simp only [beq_iff_eq]
  intro hc
  exact h (List.mem_map.mpr ⟨p, hp, hc⟩)

lemma setKeyR_of_not_mem (l : List (Nat × ℝ)) (k : Nat) (x : ℝ)
    (h : k ∉ l.map Prod.fst) :
    setKeyR l k x = l ++ [(k, x)] := by
  unfold setKeyR
  rw [if_neg]
  rw [any_eq_false_of_not_mem_keys l k h]
  simp

lemma getKeyR_append_of_some (l l' : List (Nat × ℝ)) (k : Nat) (x : ℝ)
    (h : getKeyR l k = some x) :
    getKeyR (l ++ l') k = some x := by
  unfold getKeyR at h ⊢
  rw [List.find?_append]
  rcases hf : l.find? (fun p => p.1 == k) with _ | q
  · rw [hf] at h; exact absurd h (by simp)
  · rw [hf] at h
    rw [hf]
    exact h

lemma getKeyR_append_of_not_mem (l l' : List (Nat × ℝ)) (k : Nat)
    (h : k ∉ l.map Prod.fst) :
    getKeyR (l ++ l') k = getKeyR l' k := by
  unfold getKeyR
  rw [List.find?_append, find?_eq_none_of_not_mem_keys l k h, Option.none_or]

lemma getKeyR_cons_self (k : Nat) (x : ℝ) (l : List (Nat × ℝ)) :
    getKeyR ((k, x) :: l) k = some x := by
  unfold getKeyR
  rw [List.find?_cons_of_pos _ (by simp)]
  rfl

lemma getKeyR_cons_ne (k k' : Nat) (x : ℝ) (l : List (Nat × ℝ))
    (h : k' ≠ k) :
    getKeyR ((k, x) :: l) k' = getKeyR l k' := by
  unfold getKeyR
  rw [List.find?_cons_of_neg _ (by simpa using fun hc : k = k' => h hc.symm)]

mutual

theorem acDelta_keys (variance : ℝ) (ξ : ℕ → ℝ) (pr : ℝ) (ix : ℕ) :
    (t : PTree) →
      (acDelta variance ξ pr ix t).1.map Prod.fst = labelsOf t ∧
      (acDelta variance ξ pr ix t).2.1.map Prod.fst = labelsOf t
  | .node d cs => by
      have hch := acDeltaChildren_keys variance ξ
        (nodeRateFormula variance ξ pr ix d) (ix + 1) cs
      constructor
      · simp only [acDelta, List.map_cons, labelsOf_node]
        rw [hch.1]
      · simp only [acDelta, List.map_cons, labelsOf_node]
        rw [hch.2]

theorem acDeltaChildren_keys (variance : ℝ) (ξ : ℕ → ℝ) (pr : ℝ) (ix : ℕ) :
    (cs : List PTree) →
      (acDeltaChildren variance ξ pr ix cs).1.map Prod.fst = labelsOfChildren cs ∧
      (acDeltaChildren variance ξ pr ix cs).2.1.map Prod.fst = labelsOfChildren cs
  | [] => by constructor <;> rfl
  | c :: rest => by
      have h1 := acDelta_keys variance ξ pr ix c
      have h2 := acDeltaChildren_keys variance ξ pr
        (acDelta variance ξ pr ix c).2.2 rest
      constructor
      · simp only [acDeltaChildren, List.map_append, labelsOfChildren_cons]
        rw [h1.1, h2.1]
      · simp only [acDeltaChildren, List.map_append, labelsOfChildren_cons]
        rw [h1.2, h2.2]

end

lemma root_label_mem (t : PTree) : t.data.label ∈ labelsOf t := by
  cases t with
  | node d cs =>
      rw [labelsOf_node]
      exact List.mem_cons_self _ _

lemma mem_labelsOfChildren_of_mem (cs : List PTree) (c : PTree) (hc : c ∈ cs)
    (k : Nat) (hk : k ∈ labelsOf c) : k ∈ labelsOfChildren cs := by
  induction cs with
  | nil => cases hc
  | cons c' rest ih =>
      rw [labelsOfChildren_cons, List.mem_append]
      rcases List.mem_cons.mp hc with rfl | hc'
      · exact Or.inl hk
      · exact Or.inr (ih hc')

mutual

theorem parentPairs_labels (t : PTree) :
    ∀ uv ∈ parentPairs t, uv.1.label ∈ labelsOf t ∧ uv.2.label ∈ labelsOf t :=
  match t with
  | .node d cs => by
      intro uv huv
      have h := parentPairsChildren_labels d cs uv huv
      rw [labelsOf_node]
      refine ⟨?_, List.mem_cons_of_mem _ h.2⟩
      rcases h.1 with h1 | h1
      · rw [h1]; exact List.mem_cons_self _ _
      · exact List.mem_cons_of_mem _ h1

theorem parentPairsChildren_labels (d : NodeData) (cs : List PTree) :
    ∀ uv ∈ parentPairsChildren d cs,
      (uv.1.label = d.label ∨ uv.1.label ∈ labelsOfChildren cs) ∧
      uv.2.label ∈ labelsOfChildren cs :=
  match cs with
  | [] => by intro uv huv; cases huv
  | c :: rest => by
      intro uv huv
      rw [parentPairsChildren] at huv
      rcases List.mem_cons.mp huv with rfl | huv'
      · refine ⟨Or.inl rfl, ?_⟩
        rw [labelsOfChildren_cons, List.mem_append]
        exact Or.inl (root_label_mem c)
      · rcases List.mem_append.mp huv' with hin | hrest
        · have h := parentPairs_labels c uv hin
          rw [labelsOfChildren_cons]
          exact ⟨Or.inr (List.mem_append.mpr (Or.inl h.1)),
            List.mem_append.mpr (Or.inl h.2)⟩
        · have h := parentPairsChildren_labels d rest uv hrest
          rw [labelsOfChildren_cons]
          refine ⟨?_, List.mem_append.mpr (Or.inr h.2)⟩
          rcases h.1 with h1 | h1
          · exact Or.inl h1
          · exact Or.inr (List.mem_append.mpr (Or.inr h1))

end

lemma mem_parentPairsChildren (d : NodeData) (cs : List PTree)
    (uv : NodeData × NodeData) :
    uv ∈ parentPairsChildren d cs ↔
      ∃ c ∈ cs, uv = (d, c.data) ∨ uv ∈ parentPairs c := by
  induction cs with
  | nil => simp [parentPairsChildren]
  | cons c rest ih =>
      rw [parentPairsChildren]
      constructor
      · intro h
        rcases List.mem_cons.mp h with rfl | h'
        · exact ⟨c, List.mem_cons_self _ _, Or.inl rfl⟩
        · rcases List.mem_append.mp h' with hin | hrest
          · exact ⟨c, List.mem_cons_self _ _, Or.inr hin⟩
          · obtain ⟨c', hc', hor⟩ := ih.mp hrest
            exact ⟨c', List.mem_cons_of_mem _ hc', hor⟩
      · rintro ⟨c', hc', hor⟩
        rcases List.mem_cons.mp hc' with rfl | hc''
        · rcases hor with rfl | hin
          · exact List.mem_cons_self _ _
          · exact List.mem_cons_of_mem _ (List.mem_append.mpr (Or.inl hin))
        · refine List.mem_cons_of_mem _ (List.mem_append.mpr (Or.inr ?_))
          exact ih.mpr ⟨c', hc'', hor⟩

mutual

theorem acNode_bridge (variance : ℝ) (ξ : ℕ → ℝ) :
    (t : PTree) → ∀ (p : Nat) (pr : ℝ) (st : ACState),
      getKeyR st.node_rates p = some pr →
      (∀ k ∈ labelsOf t, k ∉ st.node_rates.map Prod.fst) →
      (∀ k ∈ labelsOf t, k ∉ st.edge_rates.map Prod.fst) →
      (labelsOf t).Nodup →
      p ∉ labelsOf t →
      acNode variance ξ (some p) t st =
        ⟨st.node_rates ++ (acDelta variance ξ pr st.ix t).1,
         st.edge_rates ++ (acDelta variance ξ pr st.ix t).2.1,
         (acDelta variance ξ pr st.ix t).2.2⟩
  | .node d cs => by
      intro p pr st hp hfn hfe hnd hpn
      have hdm : d.label ∈ labelsOf (PTree.node d cs) := by
        rw [labelsOf_node]; exact List.mem_cons_self _ _
      have hdn : d.label ∉ st.node_rates.map Prod.fst := hfn d.label hdm
      have hde : d.label ∉ st.edge_rates.map Prod.fst := hfe d.label hdm
      have hnd' : (labelsOfChildren cs).Nodup :=
        (List.nodup_cons.mp (by rw [labelsOf_node] at hnd; exact hnd)).2
      have hdnotc : d.label ∉ labelsOfChildren cs :=
        (List.nodup_cons.mp (by rw [labelsOf_node] at hnd; exact hnd)).1
      have hpr : (getKeyR st.node_rates p).getD 1 = pr := by rw [hp]; rfl
      have hmemc : ∀ k ∈ labelsOfChildren cs, k ∈ labelsOf (PTree.node d cs) := by
        intro k hk
        rw [labelsOf_node]
        exact List.mem_cons_of_mem _ hk
      simp only [acNode, hpr]
      rw [setKeyR_of_not_mem _ _ _ hdn, setKeyR_of_not_mem _ _ _ hde]
      have hb := acChildren_bridge variance ξ cs d.label
        (Real.exp (Real.log pr - variance * (d.dist : ℝ) / 2 +
          Real.sqrt (variance * (d.dist : ℝ)) * ξ st.ix))
        ⟨st.node_rates ++ [(d.label,
            Real.exp (Real.log pr - variance * (d.dist : ℝ) / 2 +
              Real.sqrt (variance * (d.dist : ℝ)) * ξ st.ix))],
          st.edge_rates ++ [(d.label,
            (pr + Real.exp (Real.log pr - variance * (d.dist : ℝ) / 2 +
              Real.sqrt (variance * (d.dist : ℝ)) * ξ st.ix)) / 2)],
          st.ix + 1⟩
        (by
          rw [getKeyR_append_of_not_mem _ _ _ hdn]
          exact getKeyR_cons_self _ _ _)
        (by
          intro k hk
          rw [List.map_append, List.mem_append]
          rintro (h1 | h1)
          · exact hfn k (hmemc k hk) h1
          · simp only [List.map_cons, List.map_nil, List.mem_singleton] at h1
            exact hdnotc (h1 ▸ hk))
        (by
          intro k hk
          rw [List.map_append, List.mem_append]
          rintro (h1 | h1)
          · exact hfe k (hmemc k hk) h1
          · simp only [List.map_cons, List.map_nil, List.mem_singleton] at h1
            exact hdnotc (h1 ▸ hk))
        hnd' hdnotc
      rw [hb]
      simp only [acDelta, nodeRateFormula, List.append_assoc, List.singleton_append]

theorem acChildren_bridge (variance : ℝ) (ξ : ℕ → ℝ) :
    (cs : List PTree) → ∀ (pl : Nat) (pr : ℝ) (st : ACState),
      getKeyR st.node_rates pl = some pr →
      (∀ k ∈ labelsOfChildren cs, k ∉ st.node_rates.map Prod.fst) →
      (∀ k ∈ labelsOfChildren cs, k ∉ st.edge_rates.map Prod.fst) →
      (labelsOfChildren cs).Nodup →
      pl ∉ labelsOfChildren cs →
      acChildren variance ξ pl cs st =
        ⟨st.node_rates ++ (acDeltaChildren variance ξ pr st.ix cs).1,
         st.edge_rates ++ (acDeltaChildren variance ξ pr st.ix cs).2.1,
         (acDeltaChildren variance ξ pr st.ix cs).2.2⟩
  | [] => by
      intro pl pr st hp hfn hfe hnd hpn
      cases st
      simp [acChildren, acDeltaChildren]
  | c :: rest => by
      intro pl pr st hp hfn hfe hnd hpn
      have hmc : ∀ k ∈ labelsOf c, k ∈ labelsOfChildren (c :: rest) := by
        intro k hk
        rw [labelsOfChildren_cons, List.mem_append]
        exact Or.inl hk
      have hmr : ∀ k ∈ labelsOfChildren rest, k ∈ labelsOfChildren (c :: rest) := by
        intro k hk
        rw [labelsOfChildren_cons, List.mem_append]
        exact Or.inr hk
      have hsplit := List.nodup_append.mp (by
        rw [labelsOfChildren_cons] at hnd; exact hnd)
      have hbn := acNode_bridge variance ξ c pl pr st hp
        (fun k hk => hfn k (hmc k hk))
        (fun k hk => hfe k (hmc k hk))
        hsplit.1
        (fun hmem => hpn (hmc _ hmem))
      have hkeys := acDelta_keys variance ξ pr st.ix c
      have hbrest := acChildren_bridge variance ξ rest pl pr
        ⟨st.node_rates ++ (acDelta variance ξ pr st.ix c).1,
         st.edge_rates ++ (acDelta variance ξ pr st.ix c).2.1,
         (acDelta variance ξ pr st.ix c).2.2⟩
        (getKeyR_append_of_some _ _ _ _ hp)
        (by
          intro k hk
          rw [List.map_append, List.mem_append]
          rintro (h1 | h1)
          · exact hfn k (hmr k hk) h1
          · rw [hkeys.1] at h1
            exact hsplit.2.2 h1 hk)
        (by
          intro k hk
          rw [List.map_append, List.mem_append]
          rintro (h1 | h1)
          · exact hfe k (hmr k hk) h1
          · rw [hkeys.2] at h1
            exact hsplit.2.2 h1 hk)
        hsplit.2.1
        (fun hmem => hpn (hmr _ hmem))
      show acChildren variance ξ pl rest (acNode variance ξ (some pl) c st) = _
      rw [hbn, hbrest]
      simp only [acDeltaChildren, List.append_assoc]

end

mutual

theorem acDelta_spec (variance : ℝ) (ξ : ℕ → ℝ) :
    (t : PTree) → ∀ (pr : ℝ) (ix : ℕ), (labelsOf t).Nodup →
      (getKeyR (acDelta variance ξ pr ix t).1 t.data.label =
          some (nodeRateFormula variance ξ pr ix t.data) ∧
       getKeyR (acDelta variance ξ pr ix t).2.1 t.data.label =
          some ((pr + nodeRateFormula variance ξ pr ix t.data) / 2)) ∧
      (∀ uv ∈ parentPairs t, ∃ i pru nrv,
        getKeyR (acDelta variance ξ pr ix t).1 uv.1.label = some pru ∧
        getKeyR (acDelta variance ξ pr ix t).1 uv.2.label = some nrv ∧
        nrv = nodeRateFormula variance ξ pru i uv.2 ∧
        getKeyR (acDelta variance ξ pr ix t).2.1 uv.2.label =
          some ((pru + nrv) / 2))
  | .node d cs => by
      intro pr ix hnd
      have hndc : (labelsOfChildren cs).Nodup :=
        (List.nodup_cons.mp (by rw [labelsOf_node] at hnd; exact hnd)).2
      have hdnot : d.label ∉ labelsOfChildren cs :=
        (List.nodup_cons.mp (by rw [labelsOf_node] at hnd; exact hnd)).1
      have hch := acDeltaChildren_spec variance ξ cs
        (nodeRateFormula variance ξ pr ix d) (ix + 1) hndc
      constructor
      · constructor
        · simp only [acDelta]
          exact getKeyR_cons_self _ _ _
        · simp only [acDelta]
          exact getKeyR_cons_self _ _ _
      · intro uv huv
        rw [parentPairs] at huv
        obtain ⟨c, hc, hor⟩ := (mem_parentPairsChildren d cs uv).mp huv
        have hclm : c.data.label ∈ labelsOfChildren cs :=
          mem_labelsOfChildren_of_mem cs c hc _ (root_label_mem c)
        rcases hor with rfl | hin
        · obtain ⟨i, hvn, hve⟩ := hch.1 c hc
          have hne1 : c.data.label ≠ d.label := fun hc1 => hdnot (hc1 ▸ hclm)
          refine ⟨i, nodeRateFormula variance ξ pr ix d,
            nodeRateFormula variance ξ (nodeRateFormula variance ξ pr ix d) i
              c.data, ?_, ?_, rfl, ?_⟩
          · simp only [acDelta]
            exact getKeyR_cons_self _ _ _
          · simp only [acDelta]
            rw [getKeyR_cons_ne _ _ _ _ hne1]
            exact hvn
          · simp only [acDelta]
            rw [getKeyR_cons_ne _ _ _ _ hne1]
            exact hve
        · obtain ⟨i, pru, nrv, h1, h2, h3, h4⟩ := hch.2 c hc uv hin
          have hl := parentPairs_labels c uv hin
          have hl1 : uv.1.label ∈ labelsOfChildren cs :=
            mem_labelsOfChildren_of_mem cs c hc _ hl.1
          have hl2 : uv.2.label ∈ labelsOfChildren cs :=
            mem_labelsOfChildren_of_mem cs c hc _ hl.2
          have hne2 : uv.1.label ≠ d.label := fun hc1 => hdnot (hc1 ▸ hl1)
          have hne3 : uv.2.label ≠ d.label := fun hc1 => hdnot (hc1 ▸ hl2)
          refine ⟨i, pru, nrv, ?_, ?_, h3, ?_⟩
          · simp only [acDelta]
            rw [getKeyR_cons_ne _ _ _ _ hne2]
            exact h1
          · simp only [acDelta]
            rw [getKeyR_cons_ne _ _ _ _ hne3]
            exact h2
          · simp only [acDelta]
            rw [getKeyR_cons_ne _ _ _ _ hne3]
            exact h4

theorem acDeltaChildren_spec (variance : ℝ) (ξ : ℕ → ℝ) :
    (cs : List PTree) → ∀ (pr : ℝ) (ix : ℕ), (labelsOfChildren cs).Nodup →
      (∀ c ∈ cs, ∃ i,
        getKeyR (acDeltaChildren variance ξ pr ix cs).1 c.data.label =
          some (nodeRateFormula variance ξ pr i c.data) ∧
        getKeyR (acDeltaChildren variance ξ pr ix cs).2.1 c.data.label =
          some ((pr + nodeRateFormula variance ξ pr i c.data) / 2)) ∧
      (∀ c ∈ cs, ∀ uv ∈ parentPairs c, ∃ i pru nrv,
        getKeyR (acDeltaChildren variance ξ pr ix cs).1 uv.1.label = some pru ∧
        getKeyR (acDeltaChildren variance ξ pr ix cs).1 uv.2.label = some nrv ∧
        nrv = nodeRateFormula variance ξ pru i uv.2 ∧
        getKeyR (acDeltaChildren variance ξ pr ix cs).2.1 uv.2.label =
          some ((pru + nrv) / 2))
  | [] => by
      intro pr ix hnd
      exact ⟨fun c hc => absurd hc (List.not_mem_nil c),
        fun c hc => absurd hc (List.not_mem_nil c)⟩
  | c :: rest => by
      intro pr ix hnd
      have hsplit := List.nodup_append.mp (by
        rw [labelsOfChildren_cons] at hnd; exact hnd)
      have hkeysc := acDelta_keys variance ξ pr ix c
      have hc_spec := acDelta_spec variance ξ c pr ix hsplit.1
      have hr_spec := acDeltaChildren_spec variance ξ rest pr
        (acDelta variance ξ pr ix c).2.2 hsplit.2.1
      have hliftL1 : ∀ (k : Nat) (x : ℝ),
          getKeyR (acDelta variance ξ pr ix c).1 k = some x →
          getKeyR (acDeltaChildren variance ξ pr ix (c :: rest)).1 k = some x := by
        intro k x h
        simp only [acDeltaChildren]
        exact getKeyR_append_of_some _ _ _ _ h
      have hliftL2 : ∀ (k : Nat) (x : ℝ),
          getKeyR (acDelta variance ξ pr ix c).2.1 k = some x →
          getKeyR (acDeltaChildren variance ξ pr ix (c :: rest)).2.1 k = some x := by
        intro k x h
        simp only [acDeltaChildren]
        exact getKeyR_append_of_some _ _ _ _ h
      have hliftR1 : ∀ k, k ∈ labelsOfChildren rest →
          getKeyR (acDeltaChildren variance ξ pr ix (c :: rest)).1 k =
          getKeyR (acDeltaChildren variance ξ pr
            (acDelta variance ξ pr ix c).2.2 rest).1 k := by
        intro k hk
        simp only [acDeltaChildren]
        apply getKeyR_append_of_not_mem
        rw [hkeysc.1]
        exact fun hkc => hsplit.2.2 hkc hk
      have hliftR2 : ∀ k, k ∈ labelsOfChildren rest →
          getKeyR (acDeltaChildren variance ξ pr ix (c :: rest)).2.1 k =
          getKeyR (acDeltaChildren variance ξ pr
            (acDelta variance ξ pr ix c).2.2 rest).2.1 k := by
        intro k hk
        simp only [acDeltaChildren]
        apply getKeyR_append_of_not_mem
        rw [hkeysc.2]
        exact fun hkc => hsplit.2.2 hkc hk
      constructor
      · intro c' hc'
        rcases List.mem_cons.mp hc' with rfl | hc''
        · obtain ⟨h1, h2⟩ := hc_spec.1
          exact ⟨ix, hliftL1 _ _ h1, hliftL2 _ _ h2⟩
        · obtain ⟨i, h1, h2⟩ := hr_spec.1 c' hc''
          have hm : c'.data.label ∈ labelsOfChildren rest :=
            mem_labelsOfChildren_of_mem rest c' hc'' _ (root_label_mem c')
          exact ⟨i, by rw [hliftR1 _ hm]; exact h1,
            by rw [hliftR2 _ hm]; exact h2⟩
      · intro c' hc' uv huv
        rcases List.mem_cons.mp hc' with rfl | hc''
        · obtain ⟨i, pru, nrv, h1, h2, h3, h4⟩ := hc_spec.2 uv huv
          exact ⟨i, pru, nrv, hliftL1 _ _ h1, hliftL1 _ _ h2, h3,
            hliftL2 _ _ h4⟩
        · obtain ⟨i, pru, nrv, h1, h2, h3, h4⟩ := hr_spec.2 c' hc'' uv huv
          have hl := parentPairs_labels c' uv huv
          have hm1 : uv.1.label ∈ labelsOfChildren rest :=
            mem_labelsOfChildren_of_mem rest c' hc'' _ hl.1
          have hm2 : uv.2.label ∈ labelsOfChildren rest :=
            mem_labelsOfChildren_of_mem rest c' hc'' _ hl.2
          exact ⟨i, pru, nrv, by rw [hliftR1 _ hm1]; exact h1,
            by rw [hliftR1 _ hm2]; exact h2, h3,
            by rw [hliftR2 _ hm2]; exact h4⟩

end

/-- C7: on a species tree with distinct labels, `autocorrelation_factors`
assigns node rate 1.0 and edge rate 1.0 to the root; the two returned
dictionaries list exactly the tree's labels in preorder (a single top-down
pass, each parent computed before its children); and for every non-root node
v with parent u, with var = variance * v.dist, the recorded node rate of v
is exp(z) for a draw z = mu + sqrt(var) * xi of a normal variable with mean
mu = log(node_rate[u]) - var/2 and standard deviation sqrt(var), while the
recorded edge rate of v is the arithmetic mean of the node rates of u and
v. -/
theorem rates_C7_autocorrelation (tree : PTree) (variance : ℝ) (ξ : ℕ → ℝ)
    (hnd : (labelsOf tree).Nodup) :
    getKeyR (autocorrelation_factors tree variance ξ).1 tree.data.label =
      some 1 ∧
    getKeyR (autocorrelation_factors tree variance ξ).2 tree.data.label =
      some 1 ∧
    (autocorrelation_factors tree variance ξ).1.map Prod.fst = labelsOf tree ∧
    (autocorrelation_factors tree variance ξ).2.map Prod.fst = labelsOf tree ∧
    (∀ uv ∈ parentPairs tree, ∃ i pru nrv,
      getKeyR (autocorrelation_factors tree variance ξ).1 uv.1.label =
        some pru ∧
      getKeyR (autocorrelation_factors tree variance ξ).1 uv.2.label =
        some nrv ∧
      nrv = Real.exp (Real.log pru - variance * (uv.2.dist : ℝ) / 2 +
        Real.sqrt (variance * (uv.2.dist : ℝ)) * ξ i) ∧
      getKeyR (autocorrelation_factors tree variance ξ).2 uv.2.label =
        some ((pru + nrv) / 2)) := by
  obtain ⟨d, cs⟩ := tree
  have hndc : (labelsOfChildren cs).Nodup :=
    (List.nodup_cons.mp (by rw [labelsOf_node] at hnd; exact hnd)).2
  have hdnot : d.label ∉ labelsOfChildren cs :=
    (List.nodup_cons.mp (by rw [labelsOf_node] at hnd; exact hnd)).1
  have hb := acChildren_bridge variance ξ cs d.label 1
    ⟨[(d.label, 1)], [(d.label, 1)], 0⟩
    (getKeyR_cons_self _ _ _)
    (by
      intro k hk
      simp only [List.map_cons, List.map_nil, List.mem_singleton]
      exact fun h1 => hdnot (h1 ▸ hk))
    (by
      intro k hk
      simp only [List.map_cons, List.map_nil, List.mem_singleton]
      exact fun h1 => hdnot (h1 ▸ hk))
    hndc hdnot
  have hfact : autocorrelation_factors (PTree.node d cs) variance ξ =
      ((d.label, 1) :: (acDeltaChildren variance ξ 1 0 cs).1,
       (d.label, 1) :: (acDeltaChildren variance ξ 1 0 cs).2.1) := by
    show ((acChildren variance ξ d.label cs
        ⟨setKeyR [] d.label 1, setKeyR [] d.label 1, 0⟩).node_rates,
      (acChildren variance ξ d.label cs
        ⟨setKeyR [] d.label 1, setKeyR [] d.label 1, 0⟩).edge_rates) = _
    rw [show (⟨setKeyR [] d.label 1, setKeyR [] d.label 1, 0⟩ : ACState) =
      ⟨[(d.label, 1)], [(d.label, 1)], 0⟩ from rfl]
    rw [hb]
    rfl
  have hch := acDeltaChildren_spec variance ξ cs 1 0 hndc
  rw [hfact]
  have hkeys := acDeltaChildren_keys variance ξ 1 0 cs
  refine ⟨getKeyR_cons_self _ _ _, getKeyR_cons_self _ _ _, ?_, ?_, ?_⟩
  · rw [List.map_cons, hkeys.1, labelsOf_node]
  · rw [List.map_cons, hkeys.2, labelsOf_node]
  · intro uv huv
    rw [show parentPairs (PTree.node d cs) = parentPairsChildren d cs from rfl]
      at huv
    obtain ⟨c, hc, hor⟩ := (mem_parentPairsChildren d cs uv).mp huv
    have hclm : c.data.label ∈ labelsOfChildren cs :=
      mem_labelsOfChildren_of_mem cs c hc _ (root_label_mem c)
    rcases hor with rfl | hin
    · obtain ⟨i, hvn, hve⟩ := hch.1 c hc
      have hne1 : c.data.label ≠ d.label := fun hc1 => hdnot (hc1 ▸ hclm)
      refine ⟨i, 1, nodeRateFormula variance ξ 1 i c.data, ?_, ?_, rfl, ?_⟩
      · exact getKeyR_cons_self _ _ _
      · rw [getKeyR_cons_ne _ _ _ _ hne1]
        exact hvn
      · rw [getKeyR_cons_ne _ _ _ _ hne1]
        exact hve
    · obtain ⟨i, pru, nrv, h1, h2, h3, h4⟩ := hch.2 c hc uv hin
      have hl := parentPairs_labels c uv hin
      have hl1 : uv.1.label ∈ labelsOfChildren cs :=
        mem_labelsOfChildren_of_mem cs c hc _ hl.1
      have hl2 : uv.2.label ∈ labelsOfChildren cs :=
        mem_labelsOfChildren_of_mem cs c hc _ hl.2
      have hne2 : uv.1.label ≠ d.label := fun hc1 => hdnot (hc1 ▸ hl1)
      have hne3 : uv.2.label ≠ d.label := fun hc1 => hdnot (hc1 ▸ hl2)
      refine ⟨i, pru, nrv, ?_, ?_, h3, ?_⟩
      · rw [getKeyR_cons_ne _ _ _ _ hne2]
        exact h1
      · rw [getKeyR_cons_ne _ _ _ _ hne3]
        exact h2
      · rw [getKeyR_cons_ne _ _ _ _ hne3]
        exact h4

/-- C7 (witness): the theorem applied to the concrete tree `exTree` (labels
5, 1, 4, 2, 3, pairwise distinct), variance 0 and the zero draw stream. -/
theorem rates_C7_witness :
    (labelsOf exTree).Nodup ∧
    getKeyR (autocorrelation_factors exTree 0 (fun _ => 0)).1
      exTree.data.label = some 1 ∧
    (autocorrelation_factors exTree 0 (fun _ => 0)).1.map Prod.fst =
      labelsOf exTree :=
  ⟨by decide,
   (rates_C7_autocorrelation exTree 0 (fun _ => 0) (by decide)).1,
   (rates_C7_autocorrelation exTree 0 (fun _ => 0) (by decide)).2.2.1⟩

/-- Specification of a random-variate sampler (the argument of `Sampler`):
a fixed constant or a named distribution with parameters. -/
inductive SamplerSpec where
  | const (x : ℚ)
  | dist (name : String) (params : List ℚ)
deriving DecidableEq, Repr

/-- Modelled from the spec: `asymmetree.tools.Sampling.Sampler` is not among
the sources; per the spec it is a black box `draw(spec) -> float`.  A sampler
instance is its spec together with a private stream of random seeds; its i-th
draw is an abstract function `drawFn` of the spec and the i-th seed. -/
def samplerDraw (drawFn : SamplerSpec → ℚ → ℚ) (spec : SamplerSpec)
    (seeds : ℕ → ℚ) (i : ℕ) : ℚ :=
  drawFn spec (seeds i)

/-- Return value of `simulate_gene_trees`: a single tree when `N == 1`,
otherwise the list of trees. -/
inductive GTResult where
  | one (t : PTree)
  | many (ts : List PTree)

/-- The N simulation runs of `simulate_gene_trees` (`EvolutionRates.py`
lines 62 to 86): the autocorrelation factors are computed once from the
species tree; in each run a gene tree is simulated with draws from the
duplication, loss and hgt samplers, and `assign_rates` is applied to it with
a draw from `base_rate_sampler` — which line 68 constructs as
`Sampler(dupl_rate)`, from the `dupl_rate` argument, not `base_rate`.
`GeneTreeSimulator.simulate` and `assign_rates` are abstracted as the
function parameters `simulateF` and `assignF` (the claim concerns only the
driver's argument wiring). -/
noncomputable def gene_tree_runs (N : ℕ)
    (dupl_rate loss_rate hgt_rate : SamplerSpec) (S : PTree)
    (autocorr_variance : ℝ) (drawFn : SamplerSpec → ℚ → ℚ)
    (σd σl σh σb : ℕ → ℚ) (ξ : ℕ → ℝ)
    (simulateF : ℚ → ℚ → ℚ → PTree)
    (assignF : PTree → ℚ → List (Nat × ℝ) → PTree) : List PTree :=
  let autocorr_factors := (autocorrelation_factors S autocorr_variance ξ).2
  (List.range N).map (fun i =>
    assignF
      (simulateF (samplerDraw drawFn dupl_rate σd i)
        (samplerDraw drawFn loss_rate σl i)
        (samplerDraw drawFn hgt_rate σh i))
      (samplerDraw drawFn dupl_rate σb i)
      autocorr_factors)

/-- Shallow embedding of `simulate_gene_trees` (`EvolutionRates.py`): runs
`gene_tree_runs` and returns the single tree for `N == 1`, the list
otherwise.  As in the source, the `base_rate` parameter is bound but never
read: all four samplers are constructed from `dupl_rate`, `loss_rate` and
`hgt_rate` only. -/
noncomputable def simulate_gene_trees (N : ℕ)
    (dupl_rate loss_rate hgt_rate base_rate : SamplerSpec) (S : PTree)
    (autocorr_variance : ℝ) (drawFn : SamplerSpec → ℚ → ℚ)
    (σd σl σh σb : ℕ → ℚ) (ξ : ℕ → ℝ)
    (simulateF : ℚ → ℚ → ℚ → PTree)
    (assignF : PTree → ℚ → List (Nat × ℝ) → PTree) : GTResult :=
  let runs := gene_tree_runs N dupl_rate loss_rate hgt_rate S
    autocorr_variance drawFn σd σl σh σb ξ simulateF assignF
  if N = 1 then
    match runs with
    | t :: _ => .one t
    | [] => .many []
  else .many runs

/-- C9: in every call of `simulate_gene_trees`, the base-rate value passed to
`assign_rates` in the i-th run is `drawFn dupl_rate (σb i)`: a draw from a
sampler constructed from the `dupl_rate` argument (line 68 of
`EvolutionRates.py`), not from `base_rate`; consequently the output is
identical for any two values of the `base_rate` argument, whatever the
simulator and rate-assignment functions do. -/
theorem rates_C9_base_rate_unused (N : ℕ)
    (dr lr hr br₁ br₂ : SamplerSpec) (S : PTree) (av : ℝ)
    (drawFn : SamplerSpec → ℚ → ℚ) (σd σl σh σb : ℕ → ℚ) (ξ : ℕ → ℝ)
    (simulateF : ℚ → ℚ → ℚ → PTree)
    (assignF : PTree → ℚ → List (Nat × ℝ) → PTree) :
    simulate_gene_trees N dr lr hr br₁ S av drawFn σd σl σh σb ξ
        simulateF assignF =
      simulate_gene_trees N dr lr hr br₂ S av drawFn σd σl σh σb ξ
        simulateF assignF ∧
    gene_tree_runs N dr lr hr S av drawFn σd σl σh σb ξ simulateF assignF =
      (List.range N).map (fun i =>
        assignF
          (simulateF (drawFn dr (σd i)) (drawFn lr (σl i)) (drawFn hr (σh i)))
          (drawFn dr (σb i))
          (autocorrelation_factors S av ξ).2) :=
  ⟨rfl, rfl⟩

end AsymTree
